import Mathlib

/-!
# Verification of the `parallel` dispatch-and-ordered-reassembly engine

Shallow embedding of the ordered receiver (`src/execute/receive.rs`) and the
argument parser (`src/arguments/mod.rs`) of the `parallel` repository, with
theorems settling the frozen claims about them.

The receiver is an event loop driven by a channel of `State` messages.  We
embed one run of `receive_messages` as a deterministic function of a
*schedule*: the sequence of channel observations (a message became available,
or the channel was momentarily empty when polled non-blockingly).  Disk and
tty effects are recorded as an explicit, ordered trace of events; per-job
capture-file contents are abstracted to "job `id` has bytes or not"
(`hasOutput`), which is all the ordering claims consult.
-/

namespace Parallel

/-- The `State` message type sent from workers to the receiver
(`src/execute/pipe/disk.rs`, used in `receive.rs`): `Completed(id, input)`
or `Error(id, diagnostic)`. -/
inductive State where
  | Completed (id : Nat) (name : String)
  | Error (id : Nat) (message : String)
deriving DecidableEq, Repr

/-- The job id carried by a state message. -/
def State.id : State → Nat
  | .Completed i _ => i
  | .Error i _ => i

/-- One observation of the channel, as seen by the receiver: either a message
is delivered, or a non-blocking poll finds the channel empty (`try_recv`
returned `Empty`), in which case the tailing branch performs its two capture
reads; the booleans record whether the stdout / stderr read calls fail
(`Err`), which the tailing branch unwraps. -/
inductive SchedItem where
  | msg (m : State)
  | pause (eOut eErr : Bool)
deriving DecidableEq, Repr

/-- The messages carried by a schedule, in delivery order. -/
def schedMsgs : List SchedItem → List State
  | [] => []
  | .msg m :: rest => m :: schedMsgs rest
  | .pause _ _ :: rest => schedMsgs rest

/-- One entry of the receiver's aggregate write trace, in write order:
a processed-log line, an error-log entry, the splice of job `id`'s capture
files to the real stdout/stderr (`read_outputs!`), or a tailing-mode
passthrough chunk of job `id`'s capture bytes. -/
inductive Event where
  | procLine (id : Nat) (name : String)
  | errLine (id : Nat) (message : String)
  | replay (id : Nat)
  | tailChunk (id : Nat)
deriving DecidableEq, Repr

/-- The job id an event's bytes are attributable to. -/
def Event.id : Event → Nat
  | .procLine i _ => i
  | .errLine i _ => i
  | .replay i => i
  | .tailChunk i => i

/-- The receiver's mutable state in `receive_messages`:
`counter` is the delivery cursor, `buffer` the reorder buffer (the
`SmallVec<[State; 32]>` named `buffer`), `processed`/`errors` the contents of
the processed-log (one entry per appended line) and error-log (verbatim
entries), `processedBytes` the raw bytes of the processed-log (each append
writes the input string followed by a newline).  `events` is the ordered
aggregate write trace.  `delivered` and `loopTops` are bookkeeping that the
Rust code does not store but that is fully determined by the run: the
sequence of messages the receiver has processed, and the `(counter, buffer)`
pair at the top of each main-loop iteration. -/
structure RState where
  counter : Nat
  buffer : List State
  processed : List String
  processedBytes : String
  errors : List String
  events : List Event
  delivered : List State
  loopTops : List (Nat × List State)
deriving DecidableEq, Repr

/-- The initial receiver state. -/
def initRState : RState :=
  { counter := 0, buffer := [], processed := [], processedBytes := "",
    errors := [], events := [], delivered := [], loopTops := [] }

/-- Processing of a `Completed` message whose id matched `counter`
(`receive.rs` lines 100-107, 134-140 and 176-185): append the input to the
processed-log, splice the opened capture files (owned by job `owner`: the
current counter in the direct and drain cases, the tailing-entry counter in
the tailing case) to stdout/stderr, and advance the counter.  A `replay`
event is recorded exactly when the owner's capture holds any bytes. -/
def processCompleted (hasOutput : Nat → Bool) (owner : Nat) (name : String)
    (s : RState) : RState :=
  { s with
    processed := s.processed ++ [name],
    processedBytes := s.processedBytes ++ name ++ "\n",
    events := s.events ++ Event.procLine s.counter name ::
      (if hasOutput owner then [Event.replay owner] else []),
    delivered := s.delivered ++ [State.Completed s.counter name],
    counter := s.counter + 1 }

/-- Processing of an `Error` message whose id matched `counter`
(`receive.rs` lines 114-119, 146-151 and 187-192): advance the counter and
write the diagnostic verbatim to the error-log. -/
def processError (message : String) (s : RState) : RState :=
  { s with
    errors := s.errors ++ [message],
    events := s.events ++ [Event.errLine s.counter message],
    delivered := s.delivered ++ [State.Error s.counter message],
    counter := s.counter + 1 }

/-- One pass of the reorder-buffer scan (`receive.rs` lines 173-196): walk the
buffer with its indices; a `Completed` entry whose id equals the current
counter is processed, its index recorded in `drop`, and `changed` is set; an
`Error` entry whose id equals the current counter is processed but its index
is *not* recorded and `changed` is *not* set (exactly as in the source). -/
def drainPass (hasOutput : Nat → Bool) :
    List State → Nat → RState → List Nat → Bool → RState × List Nat × Bool
  | [], _, s, drop, changed => (s, drop, changed)
  | m :: rest, index, s, drop, changed =>
    match m with
    | .Completed i name =>
      if i = s.counter then
        drainPass hasOutput rest (index + 1)
          (processCompleted hasOutput s.counter name s) (drop ++ [index]) true
      else
        drainPass hasOutput rest (index + 1) s drop changed
    | .Error i message =>
      if i = s.counter then
        drainPass hasOutput rest (index + 1) (processError message s) drop changed
      else
        drainPass hasOutput rest (index + 1) s drop changed

/-- The `while changed` rescan loop (`receive.rs` lines 170-197).  The buffer
itself is not modified during the loop (removals happen afterwards in
`drop_used_values`), so each pass scans the same entries.  The loop is run on
`fuel`; the caller supplies `buffer.length + 1`, which suffices: every pass
that sets `changed` processes at least one `Completed` entry, each entry can
match at most once (the counter moves strictly past its id), so after at most
`buffer.length` changed passes a final unchanged pass ends the loop. -/
def drainLoop (hasOutput : Nat → Bool) :
    Nat → RState → List Nat → RState × List Nat
  | 0, s, drop => (s, drop)
  | fuel + 1, s, drop =>
    match drainPass hasOutput s.buffer 0 s drop false with
    | (s', drop', changed) =>
      if changed then drainLoop hasOutput fuel s' drop' else (s', drop')

/-- Insert a number into an ascending-sorted list. -/
def insertAsc (n : Nat) : List Nat → List Nat
  | [] => [n]
  | x :: xs => if n ≤ x then n :: x :: xs else x :: insertAsc n xs

/-- Ascending insertion sort, modelling `drop.sort()`. -/
def sortAsc : List Nat → List Nat
  | [] => []
  | x :: xs => insertAsc x (sortAsc xs)

/-- `drop_used_values` (`receive.rs` lines 213-218): sort the recorded
indices ascending and remove them from the buffer in descending order, so
earlier removals do not shift the indices of later ones. -/
def drop_used_values (buffer : List State) (drop : List Nat) : List State :=
  ((sortAsc drop).reverse).foldl (fun b i => b.eraseIdx i) buffer

/-- Run the buffer drain as the main loop does: scan repeatedly, then remove
the recorded indices. -/
def drainBuffer (hasOutput : Nat → Bool) (s : RState) : RState :=
  match drainLoop hasOutput (s.buffer.length + 1) s [] with
  | (s', drop) => { s' with buffer := drop_used_values s'.buffer drop }

/-- A blocking `recv` over the schedule: moments at which the channel is
empty are waited through; the next delivered message (with the remaining
schedule) is returned, or `none` if no message is ever delivered again (the
receiver then blocks forever, or panics on `recv().unwrap()` once every
sender is dropped). -/
def recvMsg : List SchedItem → Option (State × List SchedItem)
  | [] => none
  | .msg m :: rest => some (m, rest)
  | .pause _ _ :: rest => recvMsg rest

/-- Result of the nested tailing loop. -/
inductive TailRes where
  | ok (s : RState) (rest : List SchedItem)
  | hung (s : RState)
  | panicked (s : RState)
deriving DecidableEq, Repr

/-- The nested tailing loop (`receive.rs` lines 130-167), entered with the
capture files of job `owner` (the counter at entry) already opened.  Each
iteration polls the channel: a `Completed` matching the current counter is
processed against the opened files and **breaks** the loop; an `Error`
matching the current counter is processed but the loop **continues** (the
source has no `break` in that arm); any other message is buffered; when the
poll finds the channel empty, the two tail reads run — each is `unwrap`ped,
so a failing read aborts the receiver — and any bytes read from `owner`'s
files are passed through.  If the schedule is exhausted the loop spins
forever. -/
def tailLoop (hasOutput : Nat → Bool) (owner : Nat) :
    List SchedItem → RState → TailRes
  | [], s => .hung s
  | .msg (State.Completed i name) :: rest, s =>
    if i = s.counter then
      .ok (processCompleted hasOutput owner name s) rest
    else
      tailLoop hasOutput owner rest
        { s with buffer := s.buffer ++ [State.Completed i name] }
  | .msg (State.Error i message) :: rest, s =>
    if i = s.counter then
      tailLoop hasOutput owner rest (processError message s)
    else
      tailLoop hasOutput owner rest
        { s with buffer := s.buffer ++ [State.Error i message] }
  | .pause eOut eErr :: rest, s =>
    if eOut then .panicked s
    else
      let s1 := { s with
        events := s.events ++
          (if hasOutput owner then [Event.tailChunk owner] else []) }
      if eErr then .panicked s1
      else tailLoop hasOutput owner rest s1

/-- Outcome of one run of `receive_messages`: the main loop exited normally
(`counter` reached `ninputs` and both logs were flushed); the blocking
`recv` waited forever (or panicked on a closed channel); the tailing loop
spun forever; a tailing-mode read `unwrap` panicked; or the run fuel was
exhausted (never happens for the fuel `receive_messages` supplies). -/
inductive Outcome where
  | done (s : RState)
  | stuckRecv (s : RState)
  | stuckTail (s : RState)
  | panicked (s : RState)
  | fuelOut (s : RState)
deriving DecidableEq, Repr

/-- The receiver state carried by an outcome. -/
def Outcome.state : Outcome → RState
  | .done s => s
  | .stuckRecv s => s
  | .stuckTail s => s
  | .panicked s => s
  | .fuelOut s => s

/-- The main loop of `receive_messages` (`receive.rs` lines 94-200), run on
fuel.  Each iteration snapshots `(counter, buffer)` (the loop-top state),
blocks for one message, handles it against `counter` (consume on match,
buffer otherwise — entering tailing mode if the buffered message was a
`Completed`), and then drains the reorder buffer.  Every iteration consumes
at least one schedule item through `recvMsg`, so fuel `sched.length + 1`
never runs out. -/
def mainLoop (hasOutput : Nat → Bool) (ninputs : Nat) :
    Nat → List SchedItem → RState → Outcome
  | 0, _, s => .fuelOut s
  | fuel + 1, sched, s =>
    if s.counter < ninputs then
      let s0 := { s with loopTops := s.loopTops ++ [(s.counter, s.buffer)] }
      match recvMsg sched with
      | none => .stuckRecv s0
      | some (State.Completed i name, rest) =>
        if i = s0.counter then
          mainLoop hasOutput ninputs fuel rest
            (drainBuffer hasOutput (processCompleted hasOutput s0.counter name s0))
        else
          match tailLoop hasOutput s0.counter rest
              { s0 with buffer := s0.buffer ++ [State.Completed i name] } with
          | .ok s1 rest1 => mainLoop hasOutput ninputs fuel rest1 (drainBuffer hasOutput s1)
          | .hung s1 => .stuckTail s1
          | .panicked s1 => .panicked s1
      | some (State.Error i message, rest) =>
        if i = s0.counter then
          mainLoop hasOutput ninputs fuel rest
            (drainBuffer hasOutput (processError message s0))
        else
          mainLoop hasOutput ninputs fuel rest
            (drainBuffer hasOutput
              { s0 with buffer := s0.buffer ++ [State.Error i message] })
    else
      .done s

/-- One run of `receive_messages` over a schedule of channel observations.
`hasOutput id` abstracts the contents of job `id`'s capture files to whether
they ever hold any bytes. -/
def receive_messages (hasOutput : Nat → Bool) (ninputs : Nat)
    (sched : List SchedItem) : Outcome :=
  mainLoop hasOutput ninputs (sched.length + 1) sched initRState

/-!
## The argument parser (`src/arguments/mod.rs`)

`Args::parse` iterates over `env::args().skip(1)`; we embed it as a function
of the argument vector, the lines standing on stdin, and the file system (a
map from a path to its lines, or the error message `File::open` produces).
The command string is kept as the raw `comm` string — the `tokenize` step
feeding `self.arguments` belongs to the out-of-scope tokenizer.  The
detected core count (`num_cpus::get()`) is the `ncpus` parameter. -/

/-- The error type of the argument module (`arguments/mod.rs` lines 15-26). -/
inductive ParseErr where
  | InputFileError (file why : String)
  | JobsNaN (value : String)
  | JobsNoValue
  | InvalidArgument (argument : String)
  | NoArguments
deriving DecidableEq, Repr

/-- Parsing mode (`arguments/mod.rs` lines 57-62). -/
inductive Mode where
  | Arguments
  | Command
  | Inputs
  | Files
deriving DecidableEq, Repr

/-- The flag set (`arguments/mod.rs` lines 65-71), with the defaults of
`Flags::new`. -/
structure Flags where
  grouped : Bool := true
  inputs_are_commands : Bool := false
  uses_shell : Bool := true
  quiet : Bool := false
  verbose : Bool := false
deriving DecidableEq, Repr

/-- The collected options and inputs (`arguments/mod.rs` lines 87-93); the
`arguments : Vec<Token>` field is represented by the raw command string
`comm` that the external tokenizer would consume. -/
structure Args where
  flags : Flags
  ncores : Nat
  comm : String
  ninputs : Nat
  inputs : List String
deriving DecidableEq, Repr

/-- Modelled from the spec: `jobs::parse` (in `arguments/jobs.rs`, not among
the sources) parses the `--jobs` value; the CLI table says the value is an
integer, and `ParseErr::JobsNaN` reports a value that is not a number. -/
def jobs_parse (value : String) : Except ParseErr Nat :=
  match value.toNat? with
  | some n => .ok n
  | none => .error (.JobsNaN value)

/-- The loop state of `Args::parse`: the current mode, the accumulated
command string, the finished input lists, the list being built, and the
mutable `Args` fields the loop writes.  `jobs_next` models the
`raw_args.next()` consumption of `-j` / `--jobs`: when set, the next token
is consumed as the jobs value (and an exhausted iterator is
`ParseErr::JobsNoValue`). -/
structure ParseState where
  mode : Mode
  comm : String
  lists : List (List String)
  current_inputs : List String
  flags : Flags
  ncores : Nat
  jobs_next : Bool
deriving DecidableEq, Repr

/-- Result of one pass of the `while let Some(argument)` loop. -/
inductive LoopRes where
  | ok (st : ParseState)
  | err (e : ParseErr)
  | exit0
  | panicked
deriving DecidableEq, Repr

/-- Result of the combined short-flag scan. -/
inductive ShortRes where
  | ok (flags : Flags)
  | exit0
  | invalid
deriving DecidableEq, Repr

/-- The combined short-flag loop (`arguments/mod.rs` lines 150-164): every
character of `argument[1..]` is handled in turn; `h` prints the man page and
exits 0, `n`/`u`/`q`/`v` update the flags, and anything else yields
`InvalidArgument` immediately. -/
def shortFlags : List Char → Flags → ShortRes
  | [], f => .ok f
  | c :: cs, f =>
    if c = 'h' then .exit0
    else if c = 'n' then shortFlags cs { f with uses_shell := false }
    else if c = 'u' then shortFlags cs { f with grouped := false }
    else if c = 'q' then shortFlags cs { f with quiet := true }
    else if c = 'v' then shortFlags cs { f with verbose := true }
    else .invalid

/-- What an `Arguments`-mode token asks the loop to do; mirrors the arms of
`arguments/mod.rs` lines 126-216. -/
inductive ArgAct where
  | update (flags : Flags)
  | setNcores (n : Nat)
  | jobsFromNext
  | toInputs
  | toFiles
  | command
  | exit0
  | err (e : ParseErr)
  | panicked
deriving DecidableEq, Repr

/-- The long-option match (`arguments/mod.rs` lines 167-194) for a token
`--name`; `--jobs` asks the loop to consume the next token as its value. -/
def longAction (token name : String) (flags : Flags) : ArgAct :=
  if name = "help" then .exit0
  else if name = "jobs" then .jobsFromNext
  else if name = "ungroup" then .update { flags with grouped := false }
  else if name = "no-shell" then .update { flags with uses_shell := false }
  else if name = "num-cpu-cores" then .exit0
  else if name = "quiet" then .update { flags with quiet := true }
  else if name = "verbose" then .update { flags with verbose := true }
  else if name = "version" then .exit0
  else .err (.InvalidArgument token)

/-- Handling of one token in `Arguments` mode (`arguments/mod.rs` lines
126-216): the first character is `unwrap`ped — an empty token panics; a
leading `-` dispatches to `-j` (inline value, or value from the next token),
to the long options for `--`, or to the combined short-flag loop; otherwise
`:::` / `::::` switch modes and any other token starts the command. -/
def argumentsAction (token : String) (flags : Flags) : ArgAct :=
  match token.data with
  | [] => .panicked
  | c0 :: cs0 =>
    if c0 = '-' then
      match cs0 with
      | [] => .err (.InvalidArgument "-")
      | c :: cs =>
        if c = 'j' then
          match cs with
          | _ :: _ =>
            match jobs_parse (String.mk cs) with
            | .ok n => .setNcores n
            | .error e => .err e
          | [] => .jobsFromNext
        else if c = '-' then
          longAction token (String.mk cs) flags
        else
          match shortFlags (c :: cs) flags with
          | .ok f => .update f
          | .exit0 => .exit0
          | .invalid => .err (.InvalidArgument token)
    else
      if token = ":::" then .toInputs
      else if token = "::::" then .toFiles
      else .command

/-- Classify a token in `Inputs`/`Files` mode (`arguments/mod.rs` lines
229-249): the target mode and whether the current list is closed and a new
one started (`:::` / `::::`) or extended (`:::+` / `::::+`). -/
def listToken (token : String) : Option (Mode × Bool) :=
  if token = ":::" then some (.Inputs, true)
  else if token = ":::+" then some (.Inputs, false)
  else if token = "::::" then some (.Files, true)
  else if token = "::::+" then some (.Files, false)
  else none

/-- Apply a list-mode switch: on a new list, push the current inputs (when
nonempty) and clear them. -/
def switchList (m : Mode) (newList : Bool) (st : ParseState) : ParseState :=
  if newList then
    { st with mode := m,
              lists := if st.current_inputs ≠ [] then st.lists ++ [st.current_inputs]
                       else st.lists,
              current_inputs := [] }
  else { st with mode := m }

/-- Result of processing a single token. -/
inductive StepRes where
  | cont (st : ParseState)
  | err (e : ParseErr)
  | exit0
  | panicked
deriving DecidableEq, Repr

/-- Process one token of the argument loop (`arguments/mod.rs` lines
123-258).  A pending `-j` / `--jobs` value (`jobs_next`) consumes the token
outright; otherwise the token is handled according to the current mode. -/
def parseStep (files : String → Except String (List String)) (token : String)
    (st : ParseState) : StepRes :=
  if st.jobs_next then
    match jobs_parse token with
    | .ok n => .cont { st with ncores := n, jobs_next := false }
    | .error e => .err e
  else
    match st.mode with
    | .Arguments =>
      match argumentsAction token st.flags with
      | .update f => .cont { st with flags := f }
      | .setNcores n => .cont { st with ncores := n }
      | .jobsFromNext => .cont { st with jobs_next := true }
      | .toInputs =>
        .cont { st with mode := .Inputs,
                        flags := { st.flags with inputs_are_commands := true } }
      | .toFiles =>
        .cont { st with mode := .Files,
                        flags := { st.flags with inputs_are_commands := true } }
      | .command => .cont { st with comm := st.comm ++ token, mode := .Command }
      | .exit0 => .exit0
      | .err e => .err e
      | .panicked => .panicked
    | .Command =>
      if token = ":::" ∨ token = ":::+" then .cont { st with mode := .Inputs }
      else if token = "::::" ∨ token = "::::+" then .cont { st with mode := .Files }
      else .cont { st with comm := st.comm ++ " " ++ token }
    | .Inputs =>
      match listToken token with
      | some (m, newList) => .cont (switchList m newList st)
      | none => .cont { st with current_inputs := st.current_inputs ++ [token] }
    | .Files =>
      match listToken token with
      | some (m, newList) => .cont (switchList m newList st)
      | none =>
        match files token with
        | .ok lines => .cont { st with current_inputs := st.current_inputs ++ lines }
        | .error why => .err (.InputFileError token why)

/-- The argument loop of `Args::parse` (`arguments/mod.rs` lines 123-258):
fold `parseStep` over the tokens; running out of tokens with a jobs value
still pending is `ParseErr::JobsNoValue`. -/
def parseLoop (files : String → Except String (List String)) :
    List String → ParseState → LoopRes
  | [], st => if st.jobs_next then .err .JobsNoValue else .ok st
  | token :: rest, st =>
    match parseStep files token st with
    | .cont st2 => parseLoop files rest st2
    | .err e => .err e
    | .exit0 => .exit0
    | .panicked => .panicked

/-- Modelled from the spec: the `Permutator` of the out-of-scope `permutate`
crate produces the Cartesian product of the input lists in outer-first
order. -/
def cartesian : List (List String) → List (List String)
  | [] => [[]]
  | l :: ls => (l.map fun x => (cartesian ls).map fun p => x :: p).flatten

/-- The space-joining of one permutation (`arguments/mod.rs` lines 278-286). -/
def joinSpaces (l : List String) : String :=
  String.intercalate " " l

/-- Overall outcome of `Args::parse`: success (recording whether the stdin
fallback was taken), a parse error, an exit-0 path (`-h`, `--help`,
`--version`, `--num-cpu-cores`), or a panic from the first-character
`unwrap` of an empty token. -/
inductive ParseOutcome where
  | ok (args : Args) (stdinUsed : Bool)
  | err (e : ParseErr)
  | exit0
  | panicked
deriving DecidableEq, Repr

/-- The initial parsing mode fixed by peeking the first token
(`arguments/mod.rs` lines 113-117). -/
def initialMode (first : String) : Mode :=
  if first = ":::" then .Inputs else if first = "::::" then .Files else .Arguments

/-- The state `Args::parse` starts its loop with: default flags (with
`inputs_are_commands` set when the first token opens a list), the detected
core count, and empty command and lists. -/
def initParseState (ncpus : Nat) (first : String) : ParseState :=
  { mode := initialMode first, comm := "", lists := [], current_inputs := [],
    flags := { inputs_are_commands :=
      initialMode first = .Inputs ∨ initialMode first = .Files },
    ncores := ncpus, jobs_next := false }

/-- `Args::parse` (`arguments/mod.rs` lines 106-306): peek the first token to
fix the initial mode, run the argument loop, close the last input list,
build the inputs (Cartesian product when more than one list, otherwise the
current list), and fall back to reading stdin line-by-line when the inputs
are empty. -/
def parse (ncpus : Nat) (files : String → Except String (List String))
    (stdin : List String) (argv : List String) : ParseOutcome :=
  match argv with
  | [] => .err .NoArguments
  | first :: _ =>
    let st0 := initParseState ncpus first
    match parseLoop files argv st0 with
    | .panicked => .panicked
    | .exit0 => .exit0
    | .err e => .err e
    | .ok st =>
      let lists := if st.current_inputs ≠ [] then st.lists ++ [st.current_inputs] else st.lists
      let inputs0 :=
        if 1 < lists.length then (cartesian lists).map joinSpaces
        else st.current_inputs
      if inputs0.isEmpty then
        .ok { flags := st.flags, ncores := st.ncores, comm := st.comm,
              ninputs := stdin.length, inputs := stdin } true
      else
        .ok { flags := st.flags, ncores := st.ncores, comm := st.comm,
              ninputs := inputs0.length, inputs := inputs0 } false

/-- The characters accepted by the combined short-flag loop other than `h`. -/
def nuqvChars : List Char := ['n', 'u', 'q', 'v']

/-- Ordering invariant of the aggregate write trace: every recorded event is
attributable to a job at or before the cursor, and event ids never decrease
along the trace. -/
def EventsOK (s : RState) : Prop :=
  (∀ e ∈ s.events, e.id ≤ s.counter) ∧
  s.events.Pairwise (fun a b => a.id ≤ b.id)

/-- The state carried by a tailing-loop result. -/
def TailRes.state : TailRes → RState
  | .ok s _ => s
  | .hung s => s
  | .panicked s => s

/-- The processed-log line produced by a state message: the input string for
a `Completed`, nothing for an `Error`. -/
def State.nameOf : State → Option String
  | .Completed _ nm => some nm
  | .Error _ _ => none

/-- The error-log entry produced by a state message: the diagnostic for an
`Error`, nothing for a `Completed`. -/
def State.msgOf : State → Option String
  | .Completed _ _ => none
  | .Error _ m => some m

/-- Content invariant of the receiver state: the processed messages carry
the ids `0, 1, …, counter-1` in order, and the two logs are exactly the
projections of that delivery sequence (with the processed-log bytes being
each line followed by a newline). -/
def DeliveredOK (s : RState) : Prop :=
  s.delivered.map State.id = List.range s.counter ∧
  s.processed = s.delivered.filterMap State.nameOf ∧
  s.errors = s.delivered.filterMap State.msgOf ∧
  s.processedBytes = String.join (s.processed.map fun nm => nm ++ "\n")

/-- Provenance invariant: everything delivered or buffered is one of the
messages of the original schedule. -/
def SourcedFrom (msgs : List State) (s : RState) : Prop :=
  (∀ m ∈ s.delivered, m ∈ msgs) ∧ (∀ m ∈ s.buffer, m ∈ msgs)

/-- Result of one `read` call on a capture file: `ok n` read `n` bytes,
`err` is an I/O error. -/
inductive ReadRes where
  | ok (n : Nat)
  | err
deriving DecidableEq, Repr

/-- The `open_job_files!` retry loop (`receive.rs` lines 45-59) for one
file: given the outcomes of the successive `File::open` attempts (`true` =
success), the loop sleeps ~1 ms after every failure and returns after the
first success; it never fails.  The result is the number of failed attempts
before the success, or `none` when no attempt ever succeeds (the loop then
retries forever). -/
def open_file_retry : List Bool → Option Nat
  | [] => none
  | true :: _ => some 0
  | false :: rest => (open_file_retry rest).map (· + 1)

/-- The `read_outputs!` splice loop (`receive.rs` lines 15-33) for one
stream: reads until a read returns 0 bytes; a failing read is
`unwrap_or(0)`, i.e. silently treated as end-of-capture.  The value is the
list of non-empty chunk sizes spliced through; an exhausted result list
reads as 0. -/
def readDrain : List ReadRes → List Nat
  | [] => []
  | .ok 0 :: _ => []
  | .ok (n + 1) :: rest => (n + 1) :: readDrain rest
  | .err :: _ => []

/-- The `remove_job_files!` macro (`receive.rs` lines 36-42): a deletion
failure only writes a diagnostic line to the real stderr; the macro yields
no value and cannot alter control flow. -/
def remove_job_files (removeResult : Except String Unit) : List String :=
  match removeResult with
  | .ok _ => []
  | .error why => ["parallel: I/O error: unable to remove job files: " ++ why]

/-!
## Theorems settling the claims
-/

theorem shortFlags_all (l : List Char) (f : Flags) (h : ∀ c ∈ l, c ∈ nuqvChars) :
    shortFlags l f = .ok
      { grouped := if 'u' ∈ l then false else f.grouped,
        inputs_are_commands := f.inputs_are_commands,
        uses_shell := if 'n' ∈ l then false else f.uses_shell,
        quiet := if 'q' ∈ l then true else f.quiet,
        verbose := if 'v' ∈ l then true else f.verbose } := by
  induction l generalizing f with
  | nil => rfl
  | cons c cs ih =>
    have hc : c ∈ nuqvChars := h c (by simp)
    have hcs : ∀ x ∈ cs, x ∈ nuqvChars := fun x hx => h x (by simp [hx])
    simp only [nuqvChars, List.mem_cons, List.not_mem_nil, or_false] at hc
    rcases hc with rfl | rfl | rfl | rfl <;>
      simp [shortFlags, ih _ hcs, List.mem_cons]

theorem shortFlags_exit0 (pre suf : List Char) (f : Flags)
    (hpre : ∀ c ∈ pre, c ∈ nuqvChars) :
    shortFlags (pre ++ 'h' :: suf) f = .exit0 := by
  induction pre generalizing f with
  | nil => simp [shortFlags]
  | cons c cs ih =>
    have hc : c ∈ nuqvChars := hpre c (by simp)
    have hcs : ∀ x ∈ cs, x ∈ nuqvChars := fun x hx => hpre x (by simp [hx])
    simp only [nuqvChars, List.mem_cons, List.not_mem_nil, or_false] at hc
    rcases hc with rfl | rfl | rfl | rfl <;> simp [shortFlags, ih _ hcs]

theorem shortFlags_invalid (pre suf : List Char) (b : Char) (f : Flags)
    (hpre : ∀ c ∈ pre, c ∈ nuqvChars) (hb : b ∉ 'h' :: nuqvChars) :
    shortFlags (pre ++ b :: suf) f = .invalid := by
  simp only [nuqvChars, List.mem_cons, List.not_mem_nil, or_false, not_or] at hb
  obtain ⟨hbh, hbn, hbu, hbq, hbv⟩ := hb
  induction pre generalizing f with
  | nil => simp [shortFlags, hbh, hbn, hbu, hbq, hbv]
  | cons c cs ih =>
    have hc : c ∈ nuqvChars := hpre c (by simp)
    have hcs : ∀ x ∈ cs, x ∈ nuqvChars := fun x hx => hpre x (by simp [hx])
    simp only [nuqvChars, List.mem_cons, List.not_mem_nil, or_false] at hc
    rcases hc with rfl | rfl | rfl | rfl <;>
      (simp only [List.cons_append, shortFlags]; simp; exact ih _ hcs)

theorem parseStep_short (files : String → Except String (List String))
    (token : String) (st : ParseState) (c : Char) (cs : List Char)
    (hm : st.mode = Mode.Arguments) (hj : st.jobs_next = false)
    (hd : token.data = '-' :: c :: cs) (hcj : c ≠ 'j') (hcd : c ≠ '-') :
    parseStep files token st =
      match shortFlags (c :: cs) st.flags with
      | .ok f => .cont { st with flags := f }
      | .exit0 => .exit0
      | .invalid => .err (.InvalidArgument token) := by
  unfold parseStep argumentsAction
  simp only [hj, hm, hd, Bool.false_eq_true, if_false]
  simp [hcj, hcd]
  rcases hs : shortFlags (c :: cs) st.flags with f | _ | _ <;> simp [hs]

theorem longAction_ne_panicked (token name : String) (flags : Flags) :
    longAction token name flags ≠ .panicked := by
  unfold longAction
  split_ifs <;> simp

theorem argumentsAction_ne_panicked (token : String) (flags : Flags)
    (h : token ≠ "") : argumentsAction token flags ≠ .panicked := by
  unfold argumentsAction
  rcases htd : token.data with _ | ⟨c0, cs0⟩
  · exfalso
    apply h
    cases token
    simp only [String.data] at htd
    simp [htd]
  · simp only
    split
    · rcases cs0 with _ | ⟨c, cs⟩
      · simp
      · simp only
        split
        · rcases cs with _ | ⟨c2, cs2⟩
          · simp
          · rcases hj : jobs_parse (String.mk (c2 :: cs2)) with n | e <;> simp [hj]
        · split
          · exact longAction_ne_panicked _ _ _
          · rcases hs : shortFlags (c :: cs) flags with f | _ | _ <;> simp [hs]
    · split_ifs <;> simp

theorem parseStep_ne_panicked (files : String → Except String (List String))
    (token : String) (st : ParseState) (h : token ≠ "") :
    parseStep files token st ≠ .panicked := by
  unfold parseStep
  split
  · rcases hj : jobs_parse token with n | e <;> simp [hj]
  · match hm : st.mode with
    | .Arguments =>
      rcases ha : argumentsAction token st.flags with f | n | _ | _ | _ | _ | _ | e | _ <;>
        simp [ha]
      exact argumentsAction_ne_panicked token st.flags h ha
    | .Command => split_ifs <;> simp
    | .Inputs => rcases hl : listToken token with _ | ⟨m, nl⟩ <;> simp [hl]
    | .Files =>
      rcases hl : listToken token with _ | ⟨m, nl⟩ <;> simp [hl]
      rcases hf : files token with lines | why <;> simp [hf]

theorem parseLoop_ne_panicked (files : String → Except String (List String))
    (argv : List String) (st : ParseState)
    (h : ∀ t ∈ argv, t ≠ "") : parseLoop files argv st ≠ .panicked := by
  induction argv generalizing st with
  | nil => simp only [parseLoop]; split <;> simp
  | cons token rest ih =>
    simp only [parseLoop]
    rcases hstep : parseStep files token st with st2 | e | _ | _
    · exact ih st2 (fun t ht => h t (by simp [ht]))
    · simp
    · simp
    · exact absurd hstep (parseStep_ne_panicked files token st (h token (by simp)))

/-- C9: an empty token reached by the `Arguments`-mode match panics (the
`unwrap` of the token's first character, `arguments/mod.rs` line 131), and
for every argument vector whose tokens are all non-empty `Args::parse`
never reaches that panic. -/
theorem C9_empty_token :
    (∀ (files : String → Except String (List String)) (rest : List String)
       (st : ParseState), st.mode = Mode.Arguments → st.jobs_next = false →
        parseLoop files ("" :: rest) st = .panicked) ∧
    (∀ (ncpus : Nat) (files : String → Except String (List String))
       (stdin argv : List String),
        (∀ t ∈ argv, t ≠ "") → parse ncpus files stdin argv ≠ .panicked) := by
  constructor
  · intro files rest st hm hj
    have hstep : parseStep files "" st = .panicked := by
      unfold parseStep
      simp [hj, hm, argumentsAction]
    simp [parseLoop, hstep]
  · intro ncpus files stdin argv h
    unfold parse
    rcases argv with _ | ⟨first, restArgs⟩
    · simp
    · simp only
      rcases hpl : parseLoop files (first :: restArgs) (initParseState ncpus first)
          with st | e | _ | _ <;> simp only [hpl]
      · split_ifs <;> simp
      · simp
      · simp
      · exact absurd hpl (parseLoop_ne_panicked files _ _ h)

/-- C9 witness: the panic at the concrete empty token, and a concrete
non-empty argument vector that cannot reach it. -/
theorem C9_witness :
    parseLoop (fun _ => Except.error "e") [""]
      { mode := .Arguments, comm := "", lists := [], current_inputs := [],
        flags := {}, ncores := 4, jobs_next := false } = .panicked ∧
    parse 4 (fun _ => Except.error "e") ["one"] ["echo", "a"] ≠ .panicked :=
  ⟨C9_empty_token.1 _ _ _ rfl rfl, C9_empty_token.2 _ _ _ _ (by decide)⟩

/-- C10: combined single-letter flags.  For a token `-` followed by two or
more characters whose first is neither `j` nor `-`, the characters are
processed left to right as independent short flags: if all of them are among
`n`/`u`/`q`/`v` the loop continues with the flags updated by presence
(`n` clears `uses_shell`, `u` clears `grouped`, `q` sets `quiet`, `v` sets
`verbose`); an `h` reached before any invalid character prints the man page
and exits 0; a character outside `h`/`n`/`u`/`q`/`v` reached before any `h`
makes the parse return `InvalidArgument` carrying the whole token. -/
theorem C10_short_flags :
    ∀ (files : String → Except String (List String)) (rest : List String)
      (st : ParseState) (c : Char) (cs : List Char) (token : String),
      st.mode = Mode.Arguments → st.jobs_next = false →
      token.data = '-' :: c :: cs → cs ≠ [] → c ≠ 'j' → c ≠ '-' →
      ((∀ x ∈ c :: cs, x ∈ nuqvChars) →
        parseLoop files (token :: rest) st =
          parseLoop files rest
            { st with flags :=
              { grouped := if 'u' ∈ c :: cs then false else st.flags.grouped,
                inputs_are_commands := st.flags.inputs_are_commands,
                uses_shell := if 'n' ∈ c :: cs then false else st.flags.uses_shell,
                quiet := if 'q' ∈ c :: cs then true else st.flags.quiet,
                verbose := if 'v' ∈ c :: cs then true else st.flags.verbose } }) ∧
      (∀ pre suf, c :: cs = pre ++ 'h' :: suf → (∀ x ∈ pre, x ∈ nuqvChars) →
        parseLoop files (token :: rest) st = .exit0) ∧
      (∀ pre b suf, c :: cs = pre ++ b :: suf → (∀ x ∈ pre, x ∈ nuqvChars) →
        b ∉ 'h' :: nuqvChars →
        parseLoop files (token :: rest) st = .err (.InvalidArgument token)) := by
  intro files rest st c cs token hm hj hd _hcs hcj hcd
  have hps := parseStep_short files token st c cs hm hj hd hcj hcd
  refine ⟨fun hall => ?_, fun pre suf heq hpre => ?_, fun pre b suf heq hpre hb => ?_⟩
  · simp only [parseLoop, hps, shortFlags_all (c :: cs) st.flags hall]
  · simp only [parseLoop, hps, heq, shortFlags_exit0 pre suf st.flags hpre]
  · simp only [parseLoop, hps, heq, shortFlags_invalid pre suf b st.flags hpre hb]

/-- C10 witness: the three behaviours at concrete tokens `-nv` (flags
updated, parse continues), `-nhx` (`h` exits first) and `-nxq` (invalid
character, whole token reported). -/
theorem C10_witness :
    parseLoop (fun _ => Except.error "e") ["-nv"]
      { mode := .Arguments, comm := "", lists := [], current_inputs := [],
        flags := {}, ncores := 4, jobs_next := false } =
      parseLoop (fun _ => Except.error "e") []
        { mode := .Arguments, comm := "", lists := [], current_inputs := [],
          flags := { grouped := true, inputs_are_commands := false,
                     uses_shell := false, quiet := false, verbose := true },
          ncores := 4, jobs_next := false } ∧
    parseLoop (fun _ => Except.error "e") ["-nhx"]
      { mode := .Arguments, comm := "", lists := [], current_inputs := [],
        flags := {}, ncores := 4, jobs_next := false } = .exit0 ∧
    parseLoop (fun _ => Except.error "e") ["-nxq"]
      { mode := .Arguments, comm := "", lists := [], current_inputs := [],
        flags := {}, ncores := 4, jobs_next := false } =
      .err (.InvalidArgument "-nxq") :=
  ⟨(C10_short_flags _ [] _ 'n' ['v'] "-nv" rfl rfl rfl (by decide) (by decide)
      (by decide)).1 (by decide),
   (C10_short_flags _ [] _ 'n' ['h', 'x'] "-nhx" rfl rfl rfl (by decide) (by decide)
      (by decide)).2.1 ['n'] ['x'] rfl (by decide),
   (C10_short_flags _ [] _ 'n' ['x', 'q'] "-nxq" rfl rfl rfl (by decide) (by decide)
      (by decide)).2.2 ['n'] 'x' ['q'] rfl (by decide) (by decide)⟩

theorem argumentsAction_toInputs (token : String) (flags : Flags)
    (h : argumentsAction token flags = .toInputs) : token = ":::" := by
  revert h
  unfold argumentsAction
  rcases token.data with _ | ⟨c0, cs0⟩
  · simp
  · simp only
    split
    · rcases cs0 with _ | ⟨c, cs⟩
      · simp
      · simp only
        split
        · rcases cs with _ | ⟨c2, cs2⟩
          · simp
          · rcases jobs_parse (String.mk (c2 :: cs2)) with n | e <;> simp
        · split
          · unfold longAction; split_ifs <;> simp
          · rcases shortFlags (c :: cs) flags with f | _ | _ <;> simp
    · split_ifs <;> simp_all

theorem argumentsAction_toFiles (token : String) (flags : Flags)
    (h : argumentsAction token flags = .toFiles) : token = "::::" := by
  revert h
  unfold argumentsAction
  rcases token.data with _ | ⟨c0, cs0⟩
  · simp
  · simp only
    split
    · rcases cs0 with _ | ⟨c, cs⟩
      · simp
      · simp only
        split
        · rcases cs with _ | ⟨c2, cs2⟩
          · simp
          · rcases jobs_parse (String.mk (c2 :: cs2)) with n | e <;> simp
        · split
          · unfold longAction; split_ifs <;> simp
          · rcases shortFlags (c :: cs) flags with f | _ | _ <;> simp
    · split_ifs <;> simp_all

theorem parseStep_no_list_tokens (files : String → Except String (List String))
    (token : String) (st st2 : ParseState)
    (h1 : token ≠ ":::") (h2 : token ≠ "::::") (h3 : token ≠ ":::+") (h4 : token ≠ "::::+")
    (hmode : st.mode = Mode.Arguments ∨ st.mode = Mode.Command)
    (hstep : parseStep files token st = .cont st2) :
    (st2.mode = Mode.Arguments ∨ st2.mode = Mode.Command) ∧
    st2.lists = st.lists ∧ st2.current_inputs = st.current_inputs := by
  revert hstep
  unfold parseStep
  split
  · rcases jobs_parse token with n | e <;> intro hstep <;> simp at hstep
    rw [← hstep]
    simp [hmode]
  · rcases hmode with hm | hm <;> rw [hm]
    · cases ha : argumentsAction token st.flags with
      | update f => intro hstep; simp at hstep; rw [← hstep]; simp [hm]
      | setNcores n => intro hstep; simp at hstep; rw [← hstep]; simp [hm]
      | jobsFromNext => intro hstep; simp at hstep; rw [← hstep]; simp [hm]
      | toInputs => exact fun _ => absurd (argumentsAction_toInputs token st.flags ha) h1
      | toFiles => exact fun _ => absurd (argumentsAction_toFiles token st.flags ha) h2
      | command => intro hstep; simp at hstep; rw [← hstep]; simp
      | exit0 => intro hstep; simp at hstep
      | err e => intro hstep; simp at hstep
      | panicked => intro hstep; simp at hstep
    · split_ifs with hi hf
      · rcases hi with rfl | rfl
        · exact absurd rfl h1
        · exact absurd rfl h3
      · rcases hf with rfl | rfl
        · exact absurd rfl h2
        · exact absurd rfl h4
      · intro hstep
        simp at hstep
        rw [← hstep]
        simp [hm]

theorem parseLoop_no_list_tokens (files : String → Except String (List String))
    (argv : List String) (st st' : ParseState)
    (hargv : ∀ t ∈ argv, t ≠ ":::" ∧ t ≠ "::::" ∧ t ≠ ":::+" ∧ t ≠ "::::+")
    (hmode : st.mode = Mode.Arguments ∨ st.mode = Mode.Command)
    (hok : parseLoop files argv st = .ok st') :
    st'.lists = st.lists ∧ st'.current_inputs = st.current_inputs := by
  induction argv generalizing st with
  | nil =>
    simp only [parseLoop] at hok
    split at hok
    · simp at hok
    · simp at hok
      rw [hok]
      exact ⟨rfl, rfl⟩
  | cons token rest ih =>
    simp only [parseLoop] at hok
    rcases hstep : parseStep files token st with st2 | e | _ | _ <;> rw [hstep] at hok
    · obtain ⟨ht1, ht2, ht3, ht4⟩ := hargv token (by simp)
      obtain ⟨hm2, hl2, hc2⟩ :=
        parseStep_no_list_tokens files token st st2 ht1 ht2 ht3 ht4 hmode hstep
      obtain ⟨ha, hb⟩ := ih st2 (fun t ht => hargv t (by simp [ht])) hm2 hok
      exact ⟨ha.trans hl2, hb.trans hc2⟩
    · simp at hok
    · simp at hok
    · simp at hok

/-- C8 counterexample: the claim ties the stdin fallback to the absence of
`:::` / `::::` tokens, but (a) `:::+` occurring in `Command` mode opens an
input list without either token — `echo :::+ a` supplies the input `a` and
stdin is not read; and (b) a trailing `:::` closes the only list and
`Args::parse` then assigns `self.inputs = current_inputs` (now empty), so
`echo ::: a :::` reads stdin even though its `:::` list supplied the input
`a`. -/
theorem C8_counterexample :
    ((∀ t ∈ ["echo", ":::+", "a"], t ≠ ":::" ∧ t ≠ "::::") ∧
      parse 4 (fun _ => Except.error "e") ["x"] ["echo", ":::+", "a"] =
        .ok { flags := { grouped := true, inputs_are_commands := false,
                         uses_shell := true, quiet := false, verbose := false },
              ncores := 4, comm := "echo", ninputs := 1, inputs := ["a"] } false) ∧
    ((":::" ∈ ["echo", ":::", "a", ":::"]) ∧
      parse 4 (fun _ => Except.error "e") ["x", "y"] ["echo", ":::", "a", ":::"] =
        .ok { flags := { grouped := true, inputs_are_commands := false,
                         uses_shell := true, quiet := false, verbose := false },
              ncores := 4, comm := "echo", ninputs := 2, inputs := ["x", "y"] } true) :=
  ⟨⟨by decide, by rfl⟩, ⟨by decide, by rfl⟩⟩

/-- C8 as amended: when none of `:::`, `::::`, `:::+`, `::::+` occurs among
the arguments, a successful parse takes its inputs from stdin, line by line;
and a successful parse that did not fall back to stdin is independent of
stdin. -/
theorem parse_cons (ncpus : Nat) (files : String → Except String (List String))
    (stdin : List String) (first : String) (restArgs : List String) :
    parse ncpus files stdin (first :: restArgs) =
      match parseLoop files (first :: restArgs) (initParseState ncpus first) with
      | .panicked => .panicked
      | .exit0 => .exit0
      | .err e => .err e
      | .ok st =>
        let lists := if st.current_inputs ≠ [] then st.lists ++ [st.current_inputs]
                     else st.lists
        let inputs0 := if 1 < lists.length then (cartesian lists).map joinSpaces
                       else st.current_inputs
        if inputs0.isEmpty then
          .ok { flags := st.flags, ncores := st.ncores, comm := st.comm,
                ninputs := stdin.length, inputs := stdin } true
        else
          .ok { flags := st.flags, ncores := st.ncores, comm := st.comm,
                ninputs := inputs0.length, inputs := inputs0 } false := rfl

/-- C8 as amended: when none of `:::`, `::::`, `:::+`, `::::+` occurs among
the arguments, a successful parse takes its inputs from stdin, line by line;
and a successful parse that did not fall back to stdin is independent of
stdin. -/
theorem C8_amended :
    (∀ (ncpus : Nat) (files : String → Except String (List String))
       (stdin argv : List String) (args : Args) (used : Bool),
       (∀ t ∈ argv, t ≠ ":::" ∧ t ≠ "::::" ∧ t ≠ ":::+" ∧ t ≠ "::::+") →
       parse ncpus files stdin argv = .ok args used →
       used = true ∧ args.inputs = stdin) ∧
    (∀ (ncpus : Nat) (files : String → Except String (List String))
       (stdin1 stdin2 argv : List String) (args : Args),
       parse ncpus files stdin1 argv = .ok args false →
       parse ncpus files stdin2 argv = .ok args false) := by
  constructor
  · intro ncpus files stdin argv args used hargv hok
    rcases argv with _ | ⟨first, restArgs⟩
    · simp [parse] at hok
    · rw [parse_cons] at hok
      obtain ⟨hf1, hf2, _, _⟩ := hargv first (by simp)
      have hmode : (initParseState ncpus first).mode = Mode.Arguments := by
        simp [initParseState, initialMode, hf1, hf2]
      split at hok
      · simp at hok
      · simp at hok
      · simp at hok
      · rename_i st heq
        obtain ⟨hl, hc⟩ :=
          parseLoop_no_list_tokens files (first :: restArgs) _ st hargv (Or.inl hmode) heq
        simp only [initParseState] at hl hc
        dsimp only at hok
        rw [hl, hc] at hok
        simp at hok
        exact ⟨hok.2, by rw [← hok.1]⟩
  · intro ncpus files stdin1 stdin2 argv args h1
    rcases argv with _ | ⟨first, restArgs⟩
    · simp [parse] at h1
    · rw [parse_cons] at h1 ⊢
      split at h1
      · simp at h1
      · simp at h1
      · simp at h1
      · rename_i st heq
        dsimp only at h1 ⊢
        split_ifs at h1 ⊢ <;> simp_all

/-- C8 witness: `echo` alone falls back to stdin; `echo ::: a` does not
depend on stdin. -/
theorem C8_witness :
    (true = true ∧
      (Args.mk { grouped := true, inputs_are_commands := false, uses_shell := true,
                 quiet := false, verbose := false } 4 "echo" 2 ["one", "two"]).inputs =
        ["one", "two"]) ∧
    parse 4 (fun _ => Except.error "e") ["zz"] ["echo", ":::", "a"] =
      .ok { flags := { grouped := true, inputs_are_commands := false, uses_shell := true,
                       quiet := false, verbose := false },
            ncores := 4, comm := "echo", ninputs := 1, inputs := ["a"] } false :=
  ⟨C8_amended.1 4 (fun _ => Except.error "e") ["one", "two"] ["echo"]
      (Args.mk { grouped := true, inputs_are_commands := false, uses_shell := true,
                 quiet := false, verbose := false } 4 "echo" 2 ["one", "two"]) true
      (by decide) rfl,
   C8_amended.2 4 (fun _ => Except.error "e") ["x"] ["zz"] ["echo", ":::", "a"]
      { flags := { grouped := true, inputs_are_commands := false, uses_shell := true,
                   quiet := false, verbose := false },
        ncores := 4, comm := "echo", ninputs := 1, inputs := ["a"] } rfl⟩


/-- C2: the claim says that under delivery of exactly one state message per
id in `0..ninputs` the receiver terminates.  The code does not: with
`ninputs = 3` and the channel delivering `Error 2`, `Error 1`,
`Completed 0` (one message per id), processing `Completed 0` advances the
counter to `1`, the drain pass then matches `Error 1` and advances the
counter to `2` — but the `Error` arm of the drain loop does not set
`changed`, so the rescan stops without ever matching the buffered `Error 2`,
and the receiver goes back to a blocking `recv` that can never be satisfied:
it blocks forever with `counter = 2 < 3`. -/
theorem C2_termination_bug :
    receive_messages (fun _ => false) 3
      [.msg (.Error 2 "x"), .msg (.Error 1 "y"), .msg (.Completed 0 "a")] =
    Outcome.stuckRecv
      { counter := 2,
        buffer := [State.Error 2 "x", State.Error 1 "y"],
        processed := ["a"],
        processedBytes := "a\n",
        errors := ["y"],
        events := [Event.procLine 0 "a", Event.errLine 1 "y"],
        delivered := [State.Completed 0 "a", State.Error 1 "y"],
        loopTops := [(0, []),
                     (0, [State.Error 2 "x"]),
                     (0, [State.Error 2 "x", State.Error 1 "y"]),
                     (2, [State.Error 2 "x", State.Error 1 "y"])] } := by
  rfl

/-- C3: the claim says the drain rescans until a full pass produces no entry
whose id equals `counter`, and that every matched entry — `Completed` or
`Error` — is removed from the buffer.  Draining the buffer
`[Error 2, Error 1]` at `counter = 1` refutes both: the pass matches
`Error 1` and advances the counter to `2`, but (a) the matched `Error 1` is
not removed (the `Error` arm never records its index in `drop`), and (b) the
loop stops with `Error 2` — whose id now equals the counter — still
unprocessed, because the `Error` arm does not set `changed`. -/
theorem C3_drain_bug :
    drainBuffer (fun _ => false)
      { initRState with counter := 1,
                        buffer := [State.Error 2 "x", State.Error 1 "y"] } =
    { initRState with
        counter := 2,
        buffer := [State.Error 2 "x", State.Error 1 "y"],
        errors := ["y"],
        events := [Event.errLine 1 "y"],
        delivered := [State.Error 1 "y"] } := by
  rfl

/-- C4: the claim states the loop invariant that at the top of every main
loop iteration no buffered entry has `id < counter`.  In the run with
`ninputs = 3` and delivery order `Error 1`, `Completed 0`, `Completed 2`,
the drain that follows `Completed 0` processes the buffered `Error 1` but
does not remove it, so the third iteration starts with `counter = 2` while
`Error 1` — id `1 < 2` — is still held in the buffer. -/
theorem C4_invariant_bug :
    receive_messages (fun _ => false) 3
      [.msg (.Error 1 "m"), .msg (.Completed 0 "a"), .msg (.Completed 2 "c")] =
    Outcome.done
      { counter := 3,
        buffer := [State.Error 1 "m"],
        processed := ["a", "c"],
        processedBytes := "a\nc\n",
        errors := ["m"],
        events := [Event.procLine 0 "a", Event.errLine 1 "m", Event.procLine 2 "c"],
        delivered := [State.Completed 0 "a", State.Error 1 "m", State.Completed 2 "c"],
        loopTops := [(0, []), (0, [State.Error 1 "m"]), (2, [State.Error 1 "m"])] } ∧
    ((2, [State.Error 1 "m"]) ∈
      [((0 : Nat), ([] : List State)), (0, [State.Error 1 "m"]), (2, [State.Error 1 "m"])] ∧
     (State.Error 1 "m").id < 2) := by
  exact ⟨rfl, by decide, by decide⟩

/-- C7: the claim says the nested tailing loop runs until the state message
for the current counter arrives and is fully processed, after which the
receiver leaves tailing mode.  With `ninputs = 2` and delivery order
`Completed 1`, `Error 0`: the `Completed 1` is buffered and tailing mode is
entered for counter `0`; the `Error 0` — the state message for the current
counter — is received and fully processed (counter advances to `1`, the
diagnostic is logged), yet the loop does **not** exit (the `Error` arm has no
`break`): it keeps tailing job 0's files waiting for a `Completed 1` on the
channel, which never arrives because `Completed 1` is already sitting in the
reorder buffer.  The receiver spins forever. -/
theorem C7_tailing_bug :
    receive_messages (fun _ => false) 2
      [.msg (.Completed 1 "b"), .msg (.Error 0 "m")] =
    Outcome.stuckTail
      { counter := 1,
        buffer := [State.Completed 1 "b"],
        processed := [],
        processedBytes := "",
        errors := ["m"],
        events := [Event.errLine 0 "m"],
        delivered := [State.Error 0 "m"],
        loopTops := [(0, [])] } := by
  rfl

/-- C6 counterexample: the claim says a failure to read a capture file never
aborts the receiver.  But the tailing branch (`receive.rs` lines 159-162)
calls `.unwrap()` on both reads: with `ninputs = 2`, delivery of
`Completed 1` enters tailing mode for counter `0`, and the next non-blocking
poll finding the channel empty performs a tail read whose failure panics the
receiver. -/
theorem C6_counterexample :
    receive_messages (fun _ => false) 2
      [.msg (.Completed 1 "b"), .pause true false] =
    Outcome.panicked
      { counter := 0,
        buffer := [State.Completed 1 "b"],
        processed := [],
        processedBytes := "",
        errors := [],
        events := [],
        delivered := [],
        loopTops := [(0, [])] } := by
  rfl

@[simp] theorem processCompleted_counter (h : Nat → Bool) (o : Nat) (nm : String)
    (s : RState) : (processCompleted h o nm s).counter = s.counter + 1 := rfl

@[simp] theorem processCompleted_buffer (h : Nat → Bool) (o : Nat) (nm : String)
    (s : RState) : (processCompleted h o nm s).buffer = s.buffer := rfl

@[simp] theorem processCompleted_events (h : Nat → Bool) (o : Nat) (nm : String)
    (s : RState) : (processCompleted h o nm s).events =
      s.events ++ Event.procLine s.counter nm ::
        (if h o then [Event.replay o] else []) := rfl

@[simp] theorem processCompleted_processed (h : Nat → Bool) (o : Nat) (nm : String)
    (s : RState) : (processCompleted h o nm s).processed = s.processed ++ [nm] := rfl

@[simp] theorem processCompleted_processedBytes (h : Nat → Bool) (o : Nat)
    (nm : String) (s : RState) :
    (processCompleted h o nm s).processedBytes = s.processedBytes ++ nm ++ "\n" := rfl

@[simp] theorem processCompleted_errors (h : Nat → Bool) (o : Nat) (nm : String)
    (s : RState) : (processCompleted h o nm s).errors = s.errors := rfl

@[simp] theorem processCompleted_delivered (h : Nat → Bool) (o : Nat) (nm : String)
    (s : RState) : (processCompleted h o nm s).delivered =
      s.delivered ++ [State.Completed s.counter nm] := rfl

@[simp] theorem processError_counter (m : String) (s : RState) :
    (processError m s).counter = s.counter + 1 := rfl

@[simp] theorem processError_buffer (m : String) (s : RState) :
    (processError m s).buffer = s.buffer := rfl

@[simp] theorem processError_events (m : String) (s : RState) :
    (processError m s).events = s.events ++ [Event.errLine s.counter m] := rfl

@[simp] theorem processError_processed (m : String) (s : RState) :
    (processError m s).processed = s.processed := rfl

@[simp] theorem processError_processedBytes (m : String) (s : RState) :
    (processError m s).processedBytes = s.processedBytes := rfl

@[simp] theorem processError_errors (m : String) (s : RState) :
    (processError m s).errors = s.errors ++ [m] := rfl

@[simp] theorem processError_delivered (m : String) (s : RState) :
    (processError m s).delivered = s.delivered ++ [State.Error s.counter m] := rfl

@[simp] theorem Event_id_procLine (i : Nat) (nm : String) :
    (Event.procLine i nm).id = i := rfl

@[simp] theorem Event_id_errLine (i : Nat) (m : String) :
    (Event.errLine i m).id = i := rfl

@[simp] theorem Event_id_replay (i : Nat) : (Event.replay i).id = i := rfl

@[simp] theorem Event_id_tailChunk (i : Nat) : (Event.tailChunk i).id = i := rfl

theorem processCompleted_eventsOK (hasOutput : Nat → Bool) (owner : Nat)
    (name : String) (s : RState) (ho : hasOutput owner = true → owner = s.counter)
    (hs : EventsOK s) : EventsOK (processCompleted hasOutput owner name s) := by
  obtain ⟨hb, hp⟩ := hs
  constructor
  · intro e he
    simp only [processCompleted, List.mem_append, List.mem_cons] at he
    rcases he with he | he | he
    · exact le_trans (hb e he) (Nat.le_succ _)
    · simp [he, Event.id]
    · by_cases h : hasOutput owner
      · simp [h] at he
        simp [he, Event.id, ho h]
      · simp [h] at he
  · simp only [processCompleted]
    rw [List.pairwise_append]
    refine ⟨hp, ?_, ?_⟩
    · by_cases h : hasOutput owner <;> simp [h, Event.id, ho]
    · intro a ha b hb2
      have hac := hb a ha
      by_cases h : hasOutput owner <;> simp [h, Event.id] at hb2
      · rcases hb2 with rfl | rfl
        · exact hac
        · rw [ho h]; exact hac
      · rcases hb2 with rfl
        exact hac

theorem processError_eventsOK (message : String) (s : RState)
    (hs : EventsOK s) : EventsOK (processError message s) := by
  obtain ⟨hb, hp⟩ := hs
  constructor
  · intro e he
    simp only [processError_events, List.mem_append, List.mem_singleton] at he
    rcases he with he | he
    · exact le_trans (hb e he) (Nat.le_succ _)
    · simp [he]
  · simp only [processError_events]
    rw [List.pairwise_append]
    refine ⟨hp, by simp, ?_⟩
    intro a ha b hb2
    simp at hb2
    rw [hb2]
    simp
    exact hb a ha

theorem drainPass_eventsOK (hasOutput : Nat → Bool) (entries : List State)
    (idx : Nat) (s : RState) (drop : List Nat) (ch : Bool)
    (hs : EventsOK s) : EventsOK (drainPass hasOutput entries idx s drop ch).1 := by
  induction entries generalizing idx s drop ch with
  | nil => exact hs
  | cons m rest ih =>
    cases m with
    | Completed i name =>
      simp only [drainPass]
      by_cases hi : i = s.counter <;> simp only [hi, if_true, if_false, ite_true, ite_false]
      · exact ih _ _ _ _ (processCompleted_eventsOK _ _ _ _ (fun _ => rfl) hs)
      · exact ih _ _ _ _ hs
    | Error i message =>
      simp only [drainPass]
      by_cases hi : i = s.counter <;> simp only [hi, if_true, if_false, ite_true, ite_false]
      · exact ih _ _ _ _ (processError_eventsOK _ _ hs)
      · exact ih _ _ _ _ hs

theorem drainLoop_eventsOK (hasOutput : Nat → Bool) (fuel : Nat) (s : RState)
    (drop : List Nat) (hs : EventsOK s) :
    EventsOK (drainLoop hasOutput fuel s drop).1 := by
  induction fuel generalizing s drop with
  | zero => exact hs
  | succ fuel ih =>
    simp only [drainLoop]
    rcases hdp : drainPass hasOutput s.buffer 0 s drop false with ⟨s', drop', changed⟩
    have hs' : EventsOK s' := by
      have := drainPass_eventsOK hasOutput s.buffer 0 s drop false hs
      rw [hdp] at this
      exact this
    by_cases hch : changed = true <;> simp [hch]
    · exact ih s' drop' hs'
    · exact hs'

theorem drainBuffer_eventsOK (hasOutput : Nat → Bool) (s : RState)
    (hs : EventsOK s) : EventsOK (drainBuffer hasOutput s) := by
  unfold drainBuffer
  rcases hdl : drainLoop hasOutput (s.buffer.length + 1) s [] with ⟨s', drop⟩
  have hs' : EventsOK s' := by
    have := drainLoop_eventsOK hasOutput (s.buffer.length + 1) s [] hs
    rw [hdl] at this
    exact this
  exact ⟨hs'.1, hs'.2⟩

theorem tailLoop_eventsOK (hasOutput : Nat → Bool) (owner : Nat)
    (sched : List SchedItem) (s : RState)
    (hE : ∀ i m, State.Error i m ∈ schedMsgs sched → hasOutput i = false)
    (hβ : hasOutput owner = true → owner = s.counter)
    (hs : EventsOK s) : EventsOK (tailLoop hasOutput owner sched s).state := by
  induction sched generalizing s with
  | nil => exact hs
  | cons item rest ih =>
    have hErest : ∀ i m, State.Error i m ∈ schedMsgs rest → hasOutput i = false := by
      intro i m hm
      apply hE i m
      cases item <;> simp [schedMsgs, hm]
    cases item with
    | msg m =>
      cases m with
      | Completed i name =>
        simp only [tailLoop]
        by_cases hi : i = s.counter <;> simp only [hi, ite_true, ite_false, if_true, if_false]
        · exact processCompleted_eventsOK hasOutput owner name s hβ hs
        · exact ih _ hErest hβ ⟨hs.1, hs.2⟩
      | Error i message =>
        simp only [tailLoop]
        by_cases hi : i = s.counter <;> simp only [hi, ite_true, ite_false, if_true, if_false]
        · apply ih _ hErest
          · intro hho
            exfalso
            have h1 := hβ hho
            have h2 := hE s.counter message (by simp [schedMsgs, hi])
            rw [← h1] at h2
            rw [hho] at h2
            simp at h2
          · exact processError_eventsOK message s hs
        · exact ih _ hErest hβ ⟨hs.1, hs.2⟩
    | pause eOut eErr =>
      simp only [tailLoop]
      by_cases ho : eOut = true <;> simp only [ho, ite_true, ite_false, if_true, if_false]
      · exact hs
      · have hs1 : EventsOK { s with events := s.events ++
            (if hasOutput owner then [Event.tailChunk owner] else []) } := by
          constructor
          · intro e he
            simp only [List.mem_append] at he
            rcases he with he | he
            · exact hs.1 e he
            · by_cases hho : hasOutput owner
              · simp [hho] at he
                simp [he, hβ hho]
              · simp [hho] at he
          · simp only
            rw [List.pairwise_append]
            refine ⟨hs.2, by by_cases hho : hasOutput owner <;> simp [hho], ?_⟩
            intro a ha b hb
            by_cases hho : hasOutput owner <;> simp [hho] at hb
            rw [hb]
            simp [hβ hho]
            exact hs.1 a ha
        by_cases he : eErr = true <;> simp only [he, ite_true, ite_false, if_true, if_false]
        · exact hs1
        · exact ih _ hErest hβ hs1

theorem tailLoop_ok_sub (hasOutput : Nat → Bool) (owner : Nat)
    (sched : List SchedItem) (s : RState) (s' : RState) (rest' : List SchedItem)
    (h : tailLoop hasOutput owner sched s = .ok s' rest') :
    ∀ x ∈ schedMsgs rest', x ∈ schedMsgs sched := by
  induction sched generalizing s with
  | nil => simp [tailLoop] at h
  | cons item rest ih =>
    cases item with
    | msg m =>
      cases m with
      | Completed i name =>
        simp only [tailLoop] at h
        by_cases hi : i = s.counter
        · rw [if_pos hi] at h
          obtain ⟨h1, h2⟩ := TailRes.ok.inj h
          subst h2
          intro x hx
          simp [schedMsgs, hx]
        · rw [if_neg hi] at h
          intro x hx
          have := ih _ h x hx
          simp [schedMsgs, this]
      | Error i message =>
        simp only [tailLoop] at h
        by_cases hi : i = s.counter
        · rw [if_pos hi] at h
          intro x hx
          have := ih _ h x hx
          simp [schedMsgs, this]
        · rw [if_neg hi] at h
          intro x hx
          have := ih _ h x hx
          simp [schedMsgs, this]
    | pause eOut eErr =>
      simp only [tailLoop] at h
      by_cases ho : eOut = true
      · rw [if_pos ho] at h
        cases h
      · rw [if_neg ho] at h
        by_cases he : eErr = true
        · rw [if_pos he] at h
          cases h
        · rw [if_neg he] at h
          intro x hx
          have := ih _ h x hx
          simp [schedMsgs, this]

theorem recvMsg_sub (sched : List SchedItem) (m : State) (rest : List SchedItem)
    (h : recvMsg sched = some (m, rest)) :
    m ∈ schedMsgs sched ∧ ∀ x ∈ schedMsgs rest, x ∈ schedMsgs sched := by
  induction sched with
  | nil => simp [recvMsg] at h
  | cons item tail ih =>
    cases item with
    | msg m2 =>
      simp only [recvMsg, Option.some.injEq, Prod.mk.injEq] at h
      obtain ⟨h1, h2⟩ := h
      subst h1; subst h2
      exact ⟨by simp [schedMsgs], fun x hx => by simp [schedMsgs, hx]⟩
    | pause a b =>
      simp only [recvMsg] at h
      obtain ⟨h1, h2⟩ := ih h
      exact ⟨by simp [schedMsgs, h1], fun x hx => by simp [schedMsgs, h2 x hx]⟩

theorem mainLoop_eventsOK (hasOutput : Nat → Bool) (n : Nat) (fuel : Nat)
    (sched : List SchedItem) (s : RState)
    (hE : ∀ i m, State.Error i m ∈ schedMsgs sched → hasOutput i = false)
    (hs : EventsOK s) : EventsOK (mainLoop hasOutput n fuel sched s).state := by
  induction fuel generalizing sched s with
  | zero => exact hs
  | succ fuel ih =>
    simp only [mainLoop]
    by_cases hlt : s.counter < n
    · rw [if_pos hlt]
      have hs0 : EventsOK { s with loopTops := s.loopTops ++ [(s.counter, s.buffer)] } :=
        ⟨hs.1, hs.2⟩
    
      rcases hrecv : recvMsg sched with _ | ⟨m, rest⟩
      · exact hs0
      · obtain ⟨hmem, hsub⟩ := recvMsg_sub sched m rest hrecv
        have hErest : ∀ i mm, State.Error i mm ∈ schedMsgs rest → hasOutput i = false :=
          fun i mm hm => hE i mm (hsub _ hm)
        cases m with
        | Completed i name =>
          simp only
          by_cases hi : i = s.counter
          · rw [if_pos hi]
            exact ih rest _ hErest
              (drainBuffer_eventsOK hasOutput _
                (processCompleted_eventsOK hasOutput _ name _ (fun _ => rfl) hs0))
          · rw [if_neg hi]
            rcases htl : tailLoop hasOutput s.counter rest
                { s with loopTops := s.loopTops ++ [(s.counter, s.buffer)],
                         buffer := s.buffer ++ [State.Completed i name] }
                with ⟨s1, rest1⟩ | s1 | s1
            · have h1 : EventsOK s1 := by
                have h2 := tailLoop_eventsOK hasOutput s.counter rest
                  { s with loopTops := s.loopTops ++ [(s.counter, s.buffer)],
                           buffer := s.buffer ++ [State.Completed i name] }
                  hErest (fun _ => rfl) ⟨hs.1, hs.2⟩
                rw [htl] at h2
                exact h2
              exact ih rest1 _
                (fun i mm hm => hErest i mm (tailLoop_ok_sub _ _ _ _ _ _ htl _ hm))
                (drainBuffer_eventsOK hasOutput _ h1)
            · have h2 := tailLoop_eventsOK hasOutput s.counter rest
                { s with loopTops := s.loopTops ++ [(s.counter, s.buffer)],
                         buffer := s.buffer ++ [State.Completed i name] }
                hErest (fun _ => rfl) ⟨hs.1, hs.2⟩
              rw [htl] at h2
              exact h2
            · have h2 := tailLoop_eventsOK hasOutput s.counter rest
                { s with loopTops := s.loopTops ++ [(s.counter, s.buffer)],
                         buffer := s.buffer ++ [State.Completed i name] }
                hErest (fun _ => rfl) ⟨hs.1, hs.2⟩
              rw [htl] at h2
              exact h2
        | Error i message =>
          simp only
          by_cases hi : i = s.counter
          · rw [if_pos hi]
            exact ih rest _ hErest
              (drainBuffer_eventsOK hasOutput _ (processError_eventsOK message _ hs0))
          · rw [if_neg hi]
            exact ih rest _ hErest (drainBuffer_eventsOK hasOutput _ ⟨hs.1, hs.2⟩)
    · rw [if_neg hlt]
      exact hs

theorem initRState_eventsOK : EventsOK initRState := by
  constructor <;> simp [initRState]

/-- C1: ordered delivery.  For every run in which the channel delivers
exactly one state message per id in `0..ninputs` (stated through `spec`, the
unique message of each id, and the permutation hypothesis), and in which
jobs that end in `Error` have empty captures (the spec's data model: for an
`Error`, no capture files are expected), the aggregate write trace is sorted
by job id: whenever the event at position `i` carries bytes (or the log line)
of a strictly smaller id than the event at position `j`, then `i < j` — so
for any two ids `a < b`, everything attributable to job `a` is written
before any byte attributable to job `b`.  The theorem covers every outcome
of the run, including the hanging ones, so the claim holds for whatever
prefix the receiver manages to deliver. -/
theorem C1_ordered_delivery (hasOutput : Nat → Bool) (ninputs : Nat)
    (sched : List SchedItem) (spec : Nat → State)
    (_hid : ∀ i, (spec i).id = i)
    (_hperm : List.Perm (schedMsgs sched) ((List.range ninputs).map spec))
    (hErr : ∀ i m, State.Error i m ∈ schedMsgs sched → hasOutput i = false) :
    ((receive_messages hasOutput ninputs sched).state.events.Pairwise
      (fun a b => a.id ≤ b.id)) ∧
    (∀ i j (hi : i < (receive_messages hasOutput ninputs sched).state.events.length)
        (hj : j < (receive_messages hasOutput ninputs sched).state.events.length),
      ((receive_messages hasOutput ninputs sched).state.events.get ⟨i, hi⟩).id <
        ((receive_messages hasOutput ninputs sched).state.events.get ⟨j, hj⟩).id →
      i < j) := by
  have hOK : EventsOK (receive_messages hasOutput ninputs sched).state :=
    mainLoop_eventsOK hasOutput ninputs (sched.length + 1) sched initRState hErr
      initRState_eventsOK
  refine ⟨hOK.2, ?_⟩
  intro i j hi hj hlt
  by_contra hji
  push_neg at hji
  rcases Nat.lt_or_ge j i with hj2 | hj2
  · have := List.pairwise_iff_get.mp hOK.2 ⟨j, hj⟩ ⟨i, hi⟩ hj2
    exact absurd hlt (not_lt.mpr this)
  · have : i = j := le_antisymm hj2 hji
    subst this
    exact lt_irrefl _ hlt

/-- C1 witness: the ordering conclusion at a concrete run of three jobs
delivered in order, job 1 failing. -/
theorem C1_witness :
    List.Pairwise (fun a b => a.id ≤ b.id)
      (receive_messages (fun i => !(i == 1)) 3
        [.msg (.Completed 0 "a"), .msg (.Error 1 "m"),
         .msg (.Completed 2 "c")]).state.events :=
  (C1_ordered_delivery (fun i => !(i == 1)) 3
    [.msg (.Completed 0 "a"), .msg (.Error 1 "m"), .msg (.Completed 2 "c")]
    (fun i => if i = 1 then State.Error 1 "m"
              else State.Completed i (if i = 0 then "a" else "c"))
    (by intro i; by_cases h : i = 1 <;> simp [h, State.id])
    (by decide)
    (by
      intro i m hm
      simp [schedMsgs] at hm
      rcases hm with ⟨rfl, rfl⟩
      rfl)).1

@[simp] theorem State_id_Completed (i : Nat) (nm : String) :
    (State.Completed i nm).id = i := rfl

@[simp] theorem State_id_Error (i : Nat) (m : String) :
    (State.Error i m).id = i := rfl

theorem join_append_one (l : List String) (x : String) :
    String.join (l ++ [x]) = String.join l ++ x := by
  simp [String.join, List.foldl_append]

theorem processCompleted_deliveredOK (hasOutput : Nat → Bool) (owner : Nat)
    (name : String) (s : RState) (hs : DeliveredOK s) :
    DeliveredOK (processCompleted hasOutput owner name s) := by
  obtain ⟨h1, h2, h3, h4⟩ := hs
  refine ⟨?_, ?_, ?_, ?_⟩
  · simp [h1, List.range_succ]
  · simp [h2, List.filterMap_append, State.nameOf]
  · simp [h3, List.filterMap_append, State.msgOf]
  · simp [h4, join_append_one, String.append_assoc]

theorem processError_deliveredOK (message : String) (s : RState)
    (hs : DeliveredOK s) : DeliveredOK (processError message s) := by
  obtain ⟨h1, h2, h3, h4⟩ := hs
  refine ⟨?_, ?_, ?_, ?_⟩
  · simp [h1, List.range_succ]
  · simp [h2, List.filterMap_append, State.nameOf]
  · simp [h3, List.filterMap_append, State.msgOf]
  · simp [h4]

theorem processCompleted_sourced (hasOutput : Nat → Bool) (owner : Nat)
    (name : String) (s : RState) (msgs : List State)
    (hmem : State.Completed s.counter name ∈ msgs)
    (hs : SourcedFrom msgs s) :
    SourcedFrom msgs (processCompleted hasOutput owner name s) := by
  obtain ⟨h1, h2⟩ := hs
  constructor
  · intro m hm
    simp at hm
    rcases hm with hm | hm
    · exact h1 m hm
    · rw [hm]; exact hmem
  · intro m hm
    simp at hm
    exact h2 m hm

theorem processError_sourced (message : String) (s : RState) (msgs : List State)
    (hmem : State.Error s.counter message ∈ msgs)
    (hs : SourcedFrom msgs s) :
    SourcedFrom msgs (processError message s) := by
  obtain ⟨h1, h2⟩ := hs
  constructor
  · intro m hm
    simp at hm
    rcases hm with hm | hm
    · exact h1 m hm
    · rw [hm]; exact hmem
  · intro m hm
    simp at hm
    exact h2 m hm

theorem drainPass_deliveredOK (hasOutput : Nat → Bool) (msgs : List State)
    (entries : List State) (idx : Nat) (s : RState) (drop : List Nat) (ch : Bool)
    (hent : ∀ m ∈ entries, m ∈ msgs)
    (hd : DeliveredOK s) (hsf : SourcedFrom msgs s) :
    DeliveredOK (drainPass hasOutput entries idx s drop ch).1 ∧
    SourcedFrom msgs (drainPass hasOutput entries idx s drop ch).1 := by
  induction entries generalizing idx s drop ch with
  | nil => exact ⟨hd, hsf⟩
  | cons m rest ih =>
    have hmem : m ∈ msgs := hent m (by simp)
    have hrest : ∀ x ∈ rest, x ∈ msgs := fun x hx => hent x (by simp [hx])
    cases m with
    | Completed i name =>
      simp only [drainPass]
      by_cases hi : i = s.counter
      · rw [if_pos hi]
        subst hi
        exact ih _ _ _ _ hrest
          (processCompleted_deliveredOK _ _ _ _ hd)
          (processCompleted_sourced _ _ _ _ _ hmem hsf)
      · rw [if_neg hi]
        exact ih _ _ _ _ hrest hd hsf
    | Error i message =>
      simp only [drainPass]
      by_cases hi : i = s.counter
      · rw [if_pos hi]
        subst hi
        exact ih _ _ _ _ hrest
          (processError_deliveredOK _ _ hd)
          (processError_sourced _ _ _ hmem hsf)
      · rw [if_neg hi]
        exact ih _ _ _ _ hrest hd hsf

theorem drainPass_buffer (hasOutput : Nat → Bool) (entries : List State)
    (idx : Nat) (s : RState) (drop : List Nat) (ch : Bool) :
    (drainPass hasOutput entries idx s drop ch).1.buffer = s.buffer := by
  induction entries generalizing idx s drop ch with
  | nil => rfl
  | cons m rest ih =>
    cases m with
    | Completed i name =>
      simp only [drainPass]
      by_cases hi : i = s.counter
      · rw [if_pos hi]
        rw [ih]
        rfl
      · rw [if_neg hi]
        exact ih _ _ _ _
    | Error i message =>
      simp only [drainPass]
      by_cases hi : i = s.counter
      · rw [if_pos hi]
        rw [ih]
        rfl
      · rw [if_neg hi]
        exact ih _ _ _ _

theorem drainLoop_deliveredOK (hasOutput : Nat → Bool) (msgs : List State)
    (fuel : Nat) (s : RState) (drop : List Nat)
    (hd : DeliveredOK s) (hsf : SourcedFrom msgs s) :
    DeliveredOK (drainLoop hasOutput fuel s drop).1 ∧
    SourcedFrom msgs (drainLoop hasOutput fuel s drop).1 ∧
    (drainLoop hasOutput fuel s drop).1.buffer = s.buffer := by
  induction fuel generalizing s drop with
  | zero => exact ⟨hd, hsf, rfl⟩
  | succ fuel ih =>
    simp only [drainLoop]
    rcases hdp : drainPass hasOutput s.buffer 0 s drop false with ⟨s', drop', changed⟩
    have hps := drainPass_deliveredOK hasOutput msgs s.buffer 0 s drop false
      hsf.2 hd hsf
    have hbuf := drainPass_buffer hasOutput s.buffer 0 s drop false
    rw [hdp] at hps hbuf
    simp only at hps hbuf
    by_cases hch : changed = true <;> simp only [hch, if_true, if_false, ite_true, ite_false]
    · obtain ⟨ha, hb, hc⟩ := ih s' drop' hps.1 hps.2
      exact ⟨ha, hb, by rw [hc, hbuf]⟩
    · exact ⟨hps.1, hps.2, hbuf⟩

theorem foldl_eraseIdx_subset (idxs : List Nat) (buf : List State) :
    ∀ x ∈ idxs.foldl (fun b i => b.eraseIdx i) buf, x ∈ buf := by
  induction idxs generalizing buf with
  | nil => intro x hx; exact hx
  | cons i idxs ih =>
    intro x hx
    simp only [List.foldl_cons] at hx
    exact (List.eraseIdx_sublist buf i).subset (ih _ x hx)

theorem drainBuffer_deliveredOK (hasOutput : Nat → Bool) (msgs : List State)
    (s : RState) (hd : DeliveredOK s) (hsf : SourcedFrom msgs s) :
    DeliveredOK (drainBuffer hasOutput s) ∧
    SourcedFrom msgs (drainBuffer hasOutput s) := by
  unfold drainBuffer
  rcases hdl : drainLoop hasOutput (s.buffer.length + 1) s [] with ⟨s', drop⟩
  have h := drainLoop_deliveredOK hasOutput msgs (s.buffer.length + 1) s [] hd hsf
  rw [hdl] at h
  obtain ⟨ha, hb, hc⟩ := h
  simp only at ha hb hc
  refine ⟨⟨ha.1, ha.2.1, ha.2.2.1, ha.2.2.2⟩, hb.1, ?_⟩
  intro m hm
  simp only [drop_used_values] at hm
  exact hb.2 m (foldl_eraseIdx_subset _ _ m hm)

theorem tailLoop_deliveredOK (hasOutput : Nat → Bool) (owner : Nat)
    (msgs : List State) (sched : List SchedItem) (s : RState)
    (hsub : ∀ x ∈ schedMsgs sched, x ∈ msgs)
    (hd : DeliveredOK s) (hsf : SourcedFrom msgs s) :
    DeliveredOK (tailLoop hasOutput owner sched s).state ∧
    SourcedFrom msgs (tailLoop hasOutput owner sched s).state := by
  induction sched generalizing s with
  | nil => exact ⟨hd, hsf⟩
  | cons item rest ih =>
    have hsubr : ∀ x ∈ schedMsgs rest, x ∈ msgs := by
      intro x hx
      apply hsub
      cases item <;> simp [schedMsgs, hx]
    cases item with
    | msg m =>
      cases m with
      | Completed i name =>
        have hmem : State.Completed i name ∈ msgs := hsub _ (by simp [schedMsgs])
        simp only [tailLoop]
        by_cases hi : i = s.counter
        · rw [if_pos hi]
          subst hi
          exact ⟨processCompleted_deliveredOK _ _ _ _ hd,
                 processCompleted_sourced _ _ _ _ _ hmem hsf⟩
        · rw [if_neg hi]
          refine ih { s with buffer := s.buffer ++ [State.Completed i name] } hsubr
            ⟨hd.1, hd.2.1, hd.2.2.1, hd.2.2.2⟩ ⟨hsf.1, ?_⟩
          intro x hx
          simp at hx
          rcases hx with hx | hx
          · exact hsf.2 x hx
          · rw [hx]; exact hmem
      | Error i message =>
        have hmem : State.Error i message ∈ msgs := hsub _ (by simp [schedMsgs])
        simp only [tailLoop]
        by_cases hi : i = s.counter
        · rw [if_pos hi]
          subst hi
          exact ih _ hsubr (processError_deliveredOK _ _ hd)
            (processError_sourced _ _ _ hmem hsf)
        · rw [if_neg hi]
          refine ih { s with buffer := s.buffer ++ [State.Error i message] } hsubr
            ⟨hd.1, hd.2.1, hd.2.2.1, hd.2.2.2⟩ ⟨hsf.1, ?_⟩
          intro x hx
          simp at hx
          rcases hx with hx | hx
          · exact hsf.2 x hx
          · rw [hx]; exact hmem
    | pause eOut eErr =>
      simp only [tailLoop]
      by_cases ho : eOut = true
      · rw [if_pos ho]
        exact ⟨hd, hsf⟩
      · rw [if_neg ho]
        by_cases he : eErr = true
        · rw [if_pos he]
          exact ⟨⟨hd.1, hd.2.1, hd.2.2.1, hd.2.2.2⟩, hsf.1, hsf.2⟩
        · rw [if_neg he]
          exact ih _ hsubr ⟨hd.1, hd.2.1, hd.2.2.1, hd.2.2.2⟩ ⟨hsf.1, hsf.2⟩

theorem mainLoop_deliveredOK (hasOutput : Nat → Bool) (n : Nat) (msgs : List State)
    (fuel : Nat) (sched : List SchedItem) (s : RState)
    (hsub : ∀ x ∈ schedMsgs sched, x ∈ msgs)
    (hd : DeliveredOK s) (hsf : SourcedFrom msgs s) :
    DeliveredOK (mainLoop hasOutput n fuel sched s).state ∧
    SourcedFrom msgs (mainLoop hasOutput n fuel sched s).state := by
  induction fuel generalizing sched s with
  | zero => exact ⟨hd, hsf⟩
  | succ fuel ih =>
    simp only [mainLoop]
    by_cases hlt : s.counter < n
    · rw [if_pos hlt]
      have hd0 : DeliveredOK { s with loopTops := s.loopTops ++ [(s.counter, s.buffer)] } :=
        ⟨hd.1, hd.2.1, hd.2.2.1, hd.2.2.2⟩
      have hsf0 : SourcedFrom msgs
          { s with loopTops := s.loopTops ++ [(s.counter, s.buffer)] } :=
        ⟨hsf.1, hsf.2⟩
      rcases hrecv : recvMsg sched with _ | ⟨m, rest⟩
      · exact ⟨hd0, hsf0⟩
      · obtain ⟨hmem0, hsub0⟩ := recvMsg_sub sched m rest hrecv
        have hmem : m ∈ msgs := hsub _ hmem0
        have hsubr : ∀ x ∈ schedMsgs rest, x ∈ msgs := fun x hx => hsub _ (hsub0 x hx)
        cases m with
        | Completed i name =>
          simp only
          by_cases hi : i = s.counter
          · rw [if_pos hi]
            subst hi
            obtain ⟨ha, hb⟩ := drainBuffer_deliveredOK hasOutput msgs _
              (processCompleted_deliveredOK _ _ _ _ hd0)
              (processCompleted_sourced _ _ _ _ msgs hmem hsf0)
            exact ih rest _ hsubr ha hb
          · rw [if_neg hi]
            have hsf1 : SourcedFrom msgs
                { s with loopTops := s.loopTops ++ [(s.counter, s.buffer)],
                         buffer := s.buffer ++ [State.Completed i name] } := by
              constructor
              · exact hsf.1
              · intro x hx
                simp at hx
                rcases hx with hx | hx
                · exact hsf.2 x hx
                · rw [hx]; exact hmem
            rcases htl : tailLoop hasOutput s.counter rest
                { s with loopTops := s.loopTops ++ [(s.counter, s.buffer)],
                         buffer := s.buffer ++ [State.Completed i name] }
                with ⟨s1, rest1⟩ | s1 | s1
            · have h2 := tailLoop_deliveredOK hasOutput s.counter msgs rest
                { s with loopTops := s.loopTops ++ [(s.counter, s.buffer)],
                         buffer := s.buffer ++ [State.Completed i name] }
                hsubr ⟨hd.1, hd.2.1, hd.2.2.1, hd.2.2.2⟩ hsf1
              rw [htl] at h2
              obtain ⟨ha, hb⟩ := drainBuffer_deliveredOK hasOutput msgs s1 h2.1 h2.2
              exact ih rest1 _
                (fun x hx => hsubr x (tailLoop_ok_sub _ _ _ _ _ _ htl _ hx)) ha hb
            · have h2 := tailLoop_deliveredOK hasOutput s.counter msgs rest
                { s with loopTops := s.loopTops ++ [(s.counter, s.buffer)],
                         buffer := s.buffer ++ [State.Completed i name] }
                hsubr ⟨hd.1, hd.2.1, hd.2.2.1, hd.2.2.2⟩ hsf1
              rw [htl] at h2
              exact h2
            · have h2 := tailLoop_deliveredOK hasOutput s.counter msgs rest
                { s with loopTops := s.loopTops ++ [(s.counter, s.buffer)],
                         buffer := s.buffer ++ [State.Completed i name] }
                hsubr ⟨hd.1, hd.2.1, hd.2.2.1, hd.2.2.2⟩ hsf1
              rw [htl] at h2
              exact h2
        | Error i message =>
          simp only
          by_cases hi : i = s.counter
          · rw [if_pos hi]
            subst hi
            obtain ⟨ha, hb⟩ := drainBuffer_deliveredOK hasOutput msgs _
              (processError_deliveredOK _ _ hd0)
              (processError_sourced _ _ msgs hmem hsf0)
            exact ih rest _ hsubr ha hb
          · rw [if_neg hi]
            have hsf1 : SourcedFrom msgs
                { s with loopTops := s.loopTops ++ [(s.counter, s.buffer)],
                         buffer := s.buffer ++ [State.Error i message] } := by
              constructor
              · exact hsf.1
              · intro x hx
                simp at hx
                rcases hx with hx | hx
                · exact hsf.2 x hx
                · rw [hx]; exact hmem
            obtain ⟨ha, hb⟩ := drainBuffer_deliveredOK hasOutput msgs
              { s with loopTops := s.loopTops ++ [(s.counter, s.buffer)],
                       buffer := s.buffer ++ [State.Error i message] }
              ⟨hd.1, hd.2.1, hd.2.2.1, hd.2.2.2⟩ hsf1
            exact ih rest _ hsubr ha hb
    · rw [if_neg hlt]
      exact ⟨hd, hsf⟩

theorem mainLoop_done_counter (hasOutput : Nat → Bool) (n : Nat) (fuel : Nat)
    (sched : List SchedItem) (s s' : RState)
    (h : mainLoop hasOutput n fuel sched s = .done s') : n ≤ s'.counter := by
  induction fuel generalizing sched s with
  | zero => simp [mainLoop] at h
  | succ fuel ih =>
    simp only [mainLoop] at h
    by_cases hlt : s.counter < n
    · rw [if_pos hlt] at h
      rcases hrecv : recvMsg sched with _ | ⟨m, rest⟩ <;> rw [hrecv] at h
      · simp at h
      · cases m with
        | Completed i name =>
          simp only at h
          by_cases hi : i = s.counter
          · rw [if_pos hi] at h
            exact ih _ _ h
          · rw [if_neg hi] at h
            rcases htl : tailLoop hasOutput s.counter rest
                { s with loopTops := s.loopTops ++ [(s.counter, s.buffer)],
                         buffer := s.buffer ++ [State.Completed i name] }
                with ⟨s1, rest1⟩ | s1 | s1 <;> rw [htl] at h
            · exact ih _ _ h
            · simp at h
            · simp at h
        | Error i message =>
          simp only at h
          by_cases hi : i = s.counter
          · rw [if_pos hi] at h
            exact ih _ _ h
          · rw [if_neg hi] at h
            exact ih _ _ h
    · rw [if_neg hlt] at h
      simp at h
      rw [← h]
      exact le_of_not_lt hlt

theorem filterMap_nameOf_msgOf_length (l : List State) :
    (l.filterMap State.nameOf).length + (l.filterMap State.msgOf).length = l.length := by
  induction l with
  | nil => rfl
  | cons m rest ih =>
    cases m with
    | Completed i name =>
      simp only [List.filterMap_cons, State.nameOf, State.msgOf, List.length_cons]
      omega
    | Error i message =>
      simp only [List.filterMap_cons, State.nameOf, State.msgOf, List.length_cons]
      omega

theorem list_eq_map_spec (spec : Nat → State) (l : List State)
    (hm : ∀ m ∈ l, m = spec m.id) : l = (l.map State.id).map spec := by
  induction l with
  | nil => rfl
  | cons m rest ih =>
    simp only [List.map_cons]
    rw [← hm m (by simp), ← ih (fun x hx => hm x (by simp [hx]))]

/-- C5: completeness of the logs.  For every run whose channel delivers
exactly one state message per id in `0..ninputs` (`spec` picks the unique
message of each id), if the receiver exits its main loop (`done`), the
processed-log holds exactly the input string, followed by a newline, of
every `Completed` id in increasing id order, the error-log holds exactly the
verbatim diagnostic of every `Error` id in increasing id order, and the
number of processed-log lines plus the number of error-log entries equals
`ninputs`. -/
theorem C5_completeness (hasOutput : Nat → Bool) (ninputs : Nat)
    (sched : List SchedItem) (spec : Nat → State) (s : RState)
    (hid : ∀ i, (spec i).id = i)
    (hperm : List.Perm (schedMsgs sched) ((List.range ninputs).map spec))
    (hdone : receive_messages hasOutput ninputs sched = .done s) :
    s.processed = (List.range ninputs).filterMap (fun i => (spec i).nameOf) ∧
    s.errors = (List.range ninputs).filterMap (fun i => (spec i).msgOf) ∧
    s.processed.length + s.errors.length = ninputs ∧
    s.processedBytes = String.join (s.processed.map fun nm => nm ++ "\n") := by
  have hinv := mainLoop_deliveredOK hasOutput ninputs (schedMsgs sched)
    (sched.length + 1) sched initRState (fun x hx => hx)
    (by refine ⟨rfl, rfl, rfl, rfl⟩)
    (by constructor <;> intro m hm <;> simp [initRState] at hm)
  rw [receive_messages] at hdone
  rw [hdone] at hinv
  simp only [Outcome.state] at hinv
  obtain ⟨⟨hdel, hproc, herrs, hbytes⟩, hdelsrc, _⟩ := hinv
  -- every delivered message is the unique message of its id
  have hspec : ∀ m ∈ s.delivered, m = spec m.id := by
    intro m hm
    have : m ∈ (List.range ninputs).map spec := hperm.mem_iff.mp (hdelsrc m hm)
    obtain ⟨j, _, hj⟩ := List.mem_map.mp this
    rw [← hj, hid j]
  -- counter ≥ ninputs
  have hge : ninputs ≤ s.counter :=
    mainLoop_done_counter hasOutput ninputs (sched.length + 1) sched initRState s hdone
  -- counter ≤ ninputs
  have hle : s.counter ≤ ninputs := by
    by_contra hgt
    push_neg at hgt
    have : ninputs ∈ List.range s.counter := List.mem_range.mpr hgt
    rw [← hdel] at this
    obtain ⟨m, hm, hmid⟩ := List.mem_map.mp this
    have : m ∈ (List.range ninputs).map spec := hperm.mem_iff.mp (hdelsrc m hm)
    obtain ⟨j, hj, hjm⟩ := List.mem_map.mp this
    rw [← hjm, hid j] at hmid
    rw [hmid] at hj
    exact absurd (List.mem_range.mp hj) (lt_irrefl _)
  have hcnt : s.counter = ninputs := le_antisymm hle hge
  have hdelivered : s.delivered = (List.range ninputs).map spec := by
    have h := list_eq_map_spec spec s.delivered hspec
    rw [hdel, hcnt] at h
    exact h
  refine ⟨?_, ?_, ?_, hbytes⟩
  · rw [hproc, hdelivered, List.filterMap_map]
    rfl
  · rw [herrs, hdelivered, List.filterMap_map]
    rfl
  · rw [hproc, herrs, filterMap_nameOf_msgOf_length, hdelivered, List.length_map,
      List.length_range]

/-- C5 witness: the conclusion at the concrete in-order run of three jobs
with job 1 failing. -/
theorem C5_witness :
    (Outcome.done
      { counter := 3, buffer := [], processed := ["a", "c"], processedBytes := "a\nc\n",
        errors := ["m"],
        events := [Event.procLine 0 "a", Event.replay 0, Event.errLine 1 "m",
                   Event.procLine 2 "c", Event.replay 2],
        delivered := [State.Completed 0 "a", State.Error 1 "m", State.Completed 2 "c"],
        loopTops := [(0, []), (1, []), (2, [])] }).state.processed =
      (List.range 3).filterMap (fun i =>
        ((fun i => if i = 1 then State.Error 1 "m"
                   else State.Completed i (if i = 0 then "a" else "c")) i).nameOf) ∧
    ["m"] = (List.range 3).filterMap (fun i =>
        ((fun i => if i = 1 then State.Error 1 "m"
                   else State.Completed i (if i = 0 then "a" else "c")) i).msgOf) ∧
    (2 : Nat) + 1 = 3 ∧
    "a\nc\n" = String.join (["a", "c"].map fun nm => nm ++ "\n") := by
  have h := C5_completeness (fun _ => true) 3
    [.msg (.Completed 0 "a"), .msg (.Error 1 "m"), .msg (.Completed 2 "c")]
    (fun i => if i = 1 then State.Error 1 "m"
              else State.Completed i (if i = 0 then "a" else "c"))
    { counter := 3, buffer := [], processed := ["a", "c"], processedBytes := "a\nc\n",
      errors := ["m"],
      events := [Event.procLine 0 "a", Event.replay 0, Event.errLine 1 "m",
                 Event.procLine 2 "c", Event.replay 2],
      delivered := [State.Completed 0 "a", State.Error 1 "m", State.Completed 2 "c"],
      loopTops := [(0, []), (1, []), (2, [])] }
    (by intro i; by_cases h : i = 1 <;> simp [h, State.id])
    (by decide)
    (by rfl)
  exact ⟨h.1, h.2.1, h.2.2.1, h.2.2.2⟩

/-- C6 as amended: capture-file I/O failures outside tailing mode are
non-fatal — an open failure is retried (with a sleep) until an attempt
succeeds, a read failure during the ordered replay is silently treated as an
empty capture and the receiver still advances the counter, and a deletion
failure only emits a diagnostic — but a read failure in tailing mode
(`receive.rs` lines 159-162 `unwrap`) aborts the receiver. -/
theorem C6_amended :
    (∀ attempts : List Bool, true ∈ attempts →
      ∃ j, open_file_retry attempts = some j ∧ attempts.get? j = some true ∧
        ∀ k < j, attempts.get? k = some false) ∧
    (∀ rest : List ReadRes, readDrain (.err :: rest) = []) ∧
    (∀ (hasOutput : Nat → Bool) (owner : Nat) (name : String) (s : RState),
      (processCompleted hasOutput owner name s).counter = s.counter + 1) ∧
    (∀ why : String, remove_job_files (Except.error why) =
      ["parallel: I/O error: unable to remove job files: " ++ why]) ∧
    (∀ (hasOutput : Nat → Bool) (owner : Nat) (eErr : Bool)
       (rest : List SchedItem) (s : RState),
      tailLoop hasOutput owner (.pause true eErr :: rest) s = .panicked s) := by
  refine ⟨?_, fun _ => rfl, fun _ _ _ _ => rfl, fun _ => rfl, fun _ _ _ _ _ => ?_⟩
  · intro attempts h
    induction attempts with
    | nil => simp at h
    | cons a rest ih =>
      cases a
      · simp at h
        obtain ⟨j, h1, h2, h3⟩ := ih h
        refine ⟨j + 1, ?_, ?_, ?_⟩
        · simp [open_file_retry, h1]
        · simpa using h2
        · intro k hk
          cases k with
          | zero => rfl
          | succ k => simpa using h3 k (by omega)
      · exact ⟨0, rfl, rfl, fun k hk => absurd hk (Nat.not_lt_zero k)⟩
  · simp [tailLoop]

/-- C6 amended witness: the open retry succeeding at the third attempt, an
erroring replay read at a concrete stream, a concrete counter advance, a
concrete deletion diagnostic, and the tailing abort at a concrete state. -/
theorem C6_witness :
    (∃ j, open_file_retry [false, false, true] = some j ∧
      [false, false, true].get? j = some true ∧
      ∀ k < j, [false, false, true].get? k = some false) ∧
    readDrain [ReadRes.err, ReadRes.ok 5] = [] ∧
    (processCompleted (fun _ => false) 0 "a" initRState).counter = 0 + 1 ∧
    remove_job_files (Except.error "denied") =
      ["parallel: I/O error: unable to remove job files: " ++ "denied"] ∧
    tailLoop (fun _ => false) 0 [.pause true false] initRState = .panicked initRState :=
  ⟨C6_amended.1 [false, false, true] (by decide),
   C6_amended.2.1 [ReadRes.ok 5],
   C6_amended.2.2.1 (fun _ => false) 0 "a" initRState,
   C6_amended.2.2.2.1 "denied",
   C6_amended.2.2.2.2 (fun _ => false) 0 false [] initRState⟩

end Parallel
